import Mathlib

/-!
Verification of the agent subsystem of this repository (tool-calling
orchestration loop, conversational memory, confirmation gating and RAG)
against its natural-language specification.

The TypeScript sources are shallowly embedded: pure functions become Lean
functions, the key-value store becomes explicit state (one value per key,
matching redis string-key semantics), streamed model output becomes a list
of chunks, and JavaScript exceptions become `Except`.  JavaScript string
truthiness (`undefined` and `""` behave identically in every use site
modelled here) is represented by `String` with `""` for an absent field.
JavaScript float arithmetic in the token estimator is modelled by exact
rational arithmetic over `Nat` (the estimator is only compared against
itself, so rounding differences cannot affect the proved statements), and
the cosine-similarity float arithmetic is modelled over `ℝ`.
-/

/-! ## Configuration (src/lib/agent/config.ts)

Only the fields the verified components read.  Defaults are the
`agentConfig` fallback values from config.ts. -/

structure AgentConfig where
  memorySummaryEvery : Nat
  memorySummaryMaxTokens : Nat
  memoryKeepRecentCount : Nat
  mcpConfirmRequired : Bool

/-- The default configuration values from config.ts
(MEMORY_SUMMARY_EVERY 12, MEMORY_SUMMARY_MAX_TOKENS 3000,
MEMORY_KEEP_RECENT_COUNT 5, MCP_CONFIRM_REQUIRED true). -/
def agentConfig : AgentConfig :=
  { memorySummaryEvery := 12
    memorySummaryMaxTokens := 3000
    memoryKeepRecentCount := 5
    mcpConfirmRequired := true }

/-! ## Data model (src/lib/agent/types.ts) -/

structure ToolCallFunction where
  name : String
  arguments : String
deriving DecidableEq, Repr

structure ToolCall where
  id : String
  function : ToolCallFunction
deriving DecidableEq, Repr

/-- `CompletionMessage` from types.ts; `content : Option String` models
`string | null`. -/
structure CompletionMessage where
  role : String
  content : Option String
  tool_call_id : Option String := none
  tool_calls : List ToolCall := []
deriving DecidableEq, Repr

/-! ## Memory manager (src/lib/agent/memory.ts) -/

/-- Character class of the JavaScript regex `\s` (the members that can
occur in the embedded texts; the full class also holds further unicode
space code points, which extend this predicate pointwise without affecting
any statement below). -/
def jsWhitespace (c : Char) : Bool :=
  c = ' ' ∨ c = '\t' ∨ c = '\n' ∨ c = '\r' ∨ c = '\x0b' ∨ c = '\x0c'

/-- Number of maximal whitespace runs in a character list; `prevWs` says
whether the previous character was whitespace. -/
def wsRunCount : List Char → Bool → Nat
  | [], _ => 0
  | c :: rest, prevWs =>
    (if jsWhitespace c ∧ ¬ prevWs = true then 1 else 0) + wsRunCount rest (jsWhitespace c)

/-- Length of `content.split(/\s+/)` in JavaScript: one more than the
number of maximal whitespace runs (split never returns an empty array;
leading/trailing runs contribute an empty field each). -/
def splitWsCount (s : String) : Nat :=
  1 + wsRunCount s.toList false

/-- Count of characters matched by `[一-龥]`. -/
def chineseCharCount (s : String) : Nat :=
  s.toList.countP (fun c => decide (0x4e00 ≤ c.toNat ∧ c.toNat ≤ 0x9fa5))

/-- `estimateTokens` from memory.ts:
`Math.ceil(chineseChars * 1.5 + englishWords * 1.3)`, modelled exactly over
rationals: `⌈(15·ch + 13·w)/10⌉`. -/
def estimateTokens (message : CompletionMessage) : Nat :=
  let content := message.content.getD ""
  let chineseChars := chineseCharCount content
  let englishWords := splitWsCount content
  (15 * chineseChars + 13 * englishWords + 9) / 10

/-- `getTotalTokens` from memory.ts (a `reduce` over the messages). -/
def getTotalTokens (messages : List CompletionMessage) : Nat :=
  messages.foldl (fun sum msg => sum + estimateTokens msg) 0

/-- `shouldSummarize` from memory.ts. -/
def shouldSummarize (cfg : AgentConfig) (messages : List CompletionMessage) : Bool :=
  if messages.length < cfg.memorySummaryEvery then false
  else decide (getTotalTokens messages > cfg.memorySummaryMaxTokens)

/-- The last `n` elements of a list: the effect of `redis.ltrim key (-n) (-1)`. -/
def takeLast {α : Type} (n : Nat) (l : List α) : List α :=
  l.drop (l.length - n)

/-- The summary-related per-conversation state touched by
`summarizeMessages` (memory.ts): the current summary string (absent before
the first cycle) and the summary-history list. -/
structure MemorySummaryState where
  summary : Option String
  summaryHistory : List String
deriving DecidableEq, Repr

def memoryInit : MemorySummaryState :=
  { summary := none, summaryHistory := [] }

/-- One summarization cycle (memory.ts, `summarizeMessages` lines 89-96):
the prior summary is pushed onto the history, which is then trimmed to
its last 3 entries (`ltrim -3 -1`) — but the JavaScript truthiness check
`if (oldSummary)` skips the push both when no prior summary exists
(`redis.get` returned null) and when the prior summary is the EMPTY
string (reachable via the or-empty fallback on the completion content,
memory.ts line 87); the new
summary becomes current unconditionally.  The message-log trimming and
the model call producing `newSummary` do not touch this state and are
abstracted into the `newSummary` argument. -/
def summarizeCycle (st : MemorySummaryState) (newSummary : String) : MemorySummaryState :=
  match st.summary with
  | none => { summary := some newSummary, summaryHistory := st.summaryHistory }
  | some old =>
      if old = "" then { summary := some newSummary, summaryHistory := st.summaryHistory }
      else
        { summary := some newSummary
          summaryHistory := takeLast 3 (st.summaryHistory ++ [old]) }

/-- Iterated summarization cycles, oldest first. -/
def runSummarizeCycles (st : MemorySummaryState) (summaries : List String) : MemorySummaryState :=
  summaries.foldl summarizeCycle st

/-! ## RAG chunking (src/lib/agent/rag.ts, chunkText) -/

/-- The `while` loop of `chunkText`: starting at `index`, push
`content.slice(index, index + chunkSize)` and advance by `step`
(`step = chunkSize - overlap` at the call site).  The source loops forever
when the step is not positive (overlap ≥ chunkSize); the guard `0 < step`
restricts the model to the terminating regime, which covers every
specified configuration (overlap < chunkSize). -/
def chunkTextGo {α : Type} (content : List α) (chunkSize step index : Nat) : List (List α) :=
  if _h : 0 < step ∧ index < content.length then
    ((content.drop index).take chunkSize) :: chunkTextGo content chunkSize step (index + step)
  else
    []
termination_by content.length - index
decreasing_by omega

/-- `chunkText` from rag.ts (defaults 800 / 120 at the call sites). -/
def chunkText {α : Type} (content : List α) (chunkSize overlap : Nat) : List (List α) :=
  chunkTextGo content chunkSize (chunkSize - overlap) 0

/-- Reassembly of an overlapping chunk list: first chunk, then every later
chunk with its first `overlap` elements removed.  Used to express that the
chunks, in order, cover the entire input. -/
def reassemble {α : Type} (overlap : Nat) : List (List α) → List α
  | [] => []
  | c :: rest => c ++ (rest.map (List.drop overlap)).flatten

/-- The overlap property claimed for every adjacent chunk pair: the tail of
length `O` of each chunk equals the head of length `O` of the next chunk. -/
def adjacentOverlapOK {α : Type} [DecidableEq α] (chunks : List (List α)) (O : Nat) : Prop :=
  ∀ i ci cj, chunks.get? i = some ci → chunks.get? (i + 1) = some cj →
    takeLast O ci = cj.take O

/-! ## Tool registry and validation
(src/lib/agent/tool-registry.ts, tool-validator.ts, mcp.ts)

Tool argument values are abstracted as a type parameter `A` (the source
passes parsed JSON objects around opaquely).  JavaScript exceptions are
modelled with `Except`; the distinction the source makes between
`ToolExecutionError` instances and other thrown values is kept in
`ThrownError`. -/

/-- A thrown JavaScript error: either a `ToolExecutionError` (including its
subclasses `ToolNotFoundError` / `ToolValidationError`) carrying its
message, or any other error carrying its message. -/
inductive ThrownError where
  | toolExec (message : String)
  | other (message : String)
deriving DecidableEq, Repr

/-- The structured result shape `{success, data?, message?}` used at the
tool boundary (tool-validator.ts `safeExecuteTool` return type).  The
`data` payload is irrelevant to every claim and is elided. -/
structure ToolOutcome where
  success : Bool
  message : Option String
deriving DecidableEq, Repr

/-- `ToolMetadata` from tool-registry.ts, restricted to the fields the
verified code paths read.  `parameters` models the optional zod schema as
a validator returning the zod error text on failure; `execute` models the
async tool body, which may throw. -/
structure ToolMetadata (A : Type) where
  name : String
  requiresConfirmation : Option Bool
  parameters : Option (A → Except String Unit)
  execute : A → Except ThrownError ToolOutcome

/-- The registry contents (`tools` map of `ToolRegistry`); name-keyed,
first registration wins (`register` rejects duplicates). -/
def getTool {A : Type} (reg : List (ToolMetadata A)) (name : String) : Option (ToolMetadata A) :=
  reg.find? (fun t => t.name == name)

/-- `ToolRegistry.requiresConfirmation`: `tool?.requiresConfirmation ?? false`. -/
def registryRequiresConfirmation {A : Type} (reg : List (ToolMetadata A)) (name : String) : Bool :=
  ((getTool reg name).bind (fun t => t.requiresConfirmation)).getD false

/-- `validateToolArgs` from tool-validator.ts: no schema means no check;
a schema failure throws a `ToolValidationError` whose message is
`工具 name 参数验证失败: detail`. -/
def validateToolArgs {A : Type} (toolName : String)
    (schema : Option (A → Except String Unit)) (args : A) : Except ThrownError Unit :=
  match schema with
  | none => Except.ok ()
  | some parse =>
    match parse args with
    | Except.ok () => Except.ok ()
    | Except.error m =>
        Except.error (ThrownError.toolExec ("工具 " ++ toolName ++ " 参数验证失败: " ++ m))

/-- `safeExecuteTool` from tool-validator.ts: runs the body; a thrown
`ToolExecutionError` is converted to `{success:false, message}` with its
own message, any other thrown error to `{success:false, message:"工具 …
执行失败: …"}`; a normal return is passed through. -/
def safeExecuteTool {A : Type} (toolName : String)
    (execute : A → Except ThrownError ToolOutcome) (args : A) : ToolOutcome :=
  match execute args with
  | Except.ok result => result
  | Except.error (ThrownError.toolExec m) => { success := false, message := some m }
  | Except.error (ThrownError.other m) =>
      { success := false, message := some ("工具 " ++ toolName ++ " 执行失败: " ++ m) }

/-- `ToolRegistry.execute` from tool-registry.ts: throws
`ToolNotFoundError` (message `工具 name 不存在`) on an unknown name, lets
`validateToolArgs` throw on a schema failure, and otherwise runs the body
through `safeExecuteTool`. -/
def registryExecute {A : Type} (reg : List (ToolMetadata A)) (name : String) (args : A) :
    Except ThrownError ToolOutcome :=
  match getTool reg name with
  | none => Except.error (ThrownError.toolExec ("工具 " ++ name ++ " 不存在"))
  | some tool =>
    match validateToolArgs name tool.parameters args with
    | Except.error e => Except.error e
    | Except.ok () => Except.ok (safeExecuteTool name tool.execute args)

/-- `executeTool` from mcp.ts: `try { registry.execute } catch (error)
{ return {success:false, message: error.message} }`.  Total by
construction: the catch-all converts every thrown error into a structured
failure. -/
def executeTool {A : Type} (reg : List (ToolMetadata A)) (toolName : String) (args : A) :
    ToolOutcome :=
  match registryExecute reg toolName args with
  | Except.ok result => result
  | Except.error (ThrownError.toolExec m) => { success := false, message := some m }
  | Except.error (ThrownError.other m) => { success := false, message := some m }

/-- The behaviour §4.1/§7 of the spec ascribe to tool execution, written
directly from the spec text: an unknown tool yields a structured failure;
arguments failing the declared schema yield a structured
`{success:false, message}` (never a thrown error); an exception from the
tool body is caught and converted to `{success:false, message}`; a normal
body result is returned as-is. -/
def executeToolSpec {A : Type} (reg : List (ToolMetadata A)) (toolName : String) (args : A) :
    ToolOutcome :=
  match getTool reg toolName with
  | none => { success := false, message := some ("工具 " ++ toolName ++ " 不存在") }
  | some tool =>
    match tool.parameters with
    | some parse =>
      match parse args with
      | Except.error m =>
          { success := false
            message := some ("工具 " ++ toolName ++ " 参数验证失败: " ++ m) }
      | Except.ok () => safeExecuteTool toolName tool.execute args
    | none => safeExecuteTool toolName tool.execute args

/-! ## Confirmation gating (src/lib/agent/mcp.ts) -/

/-- `PendingToolCall` payload (`createPendingCall`). -/
structure PendingCall (A : Type) where
  id : String
  toolName : String
  args : A
  createdAt : String

/-- The pending-call slice of the redis store: each string key holds at
most one value, exactly as a redis string key does.  Payload
serialization (`JSON.stringify` / `JSON.parse`) is elided. -/
def PendingStore (A : Type) : Type := String → Option (PendingCall A)

/-- `withPrefix` composed with `pendingKey` from mcp.ts:
`ai-agent:mcp:{conversationId}:pending` under the default key prefix. -/
def pendingKey (conversationId : String) : String :=
  "ai-agent:" ++ "mcp:" ++ conversationId ++ ":pending"

/-- `createPendingCall` from mcp.ts: builds the payload (the fresh
`createId('mcp')` value and the timestamp are passed in as `newId` /
`createdAt`) and overwrites the conversation key with it. -/
def createPendingCall {A : Type} (store : PendingStore A) (conversationId toolName : String)
    (args : A) (newId createdAt : String) : PendingCall A × PendingStore A :=
  let payload : PendingCall A :=
    { id := newId, toolName := toolName, args := args, createdAt := createdAt }
  (payload, fun k => if k = pendingKey conversationId then some payload else store k)

/-- `getPendingCall` from mcp.ts. -/
def getPendingCall {A : Type} (store : PendingStore A) (conversationId : String) :
    Option (PendingCall A) :=
  store (pendingKey conversationId)

/-- `clearPendingCall` from mcp.ts. -/
def clearPendingCall {A : Type} (store : PendingStore A) (conversationId : String) :
    PendingStore A :=
  fun k => if k = pendingKey conversationId then none else store k

/-- The union result of `requestToolCall`:
`{confirmRequired:false, result}` or `{confirmRequired:true, pending}`. -/
inductive RequestResult (A : Type) where
  | immediate (result : ToolOutcome)
  | confirmRequiredWith (pending : PendingCall A)

/-- Result of `requestToolCall` together with its state effect and an
instrumentation field `executed` recording which tools were actually run
(used to state "returns without executing the tool"). -/
structure RequestToolCallOutcome (A : Type) where
  response : RequestResult A
  store : PendingStore A
  executed : List String

/-- `requestToolCall` from mcp.ts.  `mcpConfirm` is
`agentConfig.mcpConfirmRequired`. -/
def requestToolCall {A : Type} (mcpConfirm : Bool) (reg : List (ToolMetadata A))
    (store : PendingStore A) (conversationId toolName : String) (args : A)
    (newId createdAt : String) : RequestToolCallOutcome A :=
  match getTool reg toolName with
  | none =>
      { response := RequestResult.immediate
          { success := false, message := some ("未知工具: " ++ toolName) }
        store := store
        executed := [] }
  | some _ =>
    let needsConfirmation := registryRequiresConfirmation reg toolName && mcpConfirm
    if needsConfirmation then
      let (payload, store1) := createPendingCall store conversationId toolName args newId createdAt
      { response := RequestResult.confirmRequiredWith payload
        store := store1
        executed := [] }
    else
      { response := RequestResult.immediate (executeTool reg toolName args)
        store := store
        executed := [toolName] }

/-- The three-way case split §4.5 of the spec ascribes to
`requestToolCall`, written directly from the spec text: unknown tool name
gives an immediate structured failure with no state change and no
execution; a confirmation-requiring tool under the enabled global policy
persists a fresh `PendingToolCall` for the conversation (overwriting any
prior value of that single conversation key) and executes nothing;
otherwise the tool is executed immediately. -/
def requestToolCallSpec {A : Type} (mcpConfirm : Bool) (reg : List (ToolMetadata A))
    (store : PendingStore A) (conversationId toolName : String) (args : A)
    (newId createdAt : String) : RequestToolCallOutcome A :=
  if (getTool reg toolName).isNone then
    { response := RequestResult.immediate
        { success := false, message := some ("未知工具: " ++ toolName) }
      store := store
      executed := [] }
  else if registryRequiresConfirmation reg toolName && mcpConfirm then
    let pending : PendingCall A :=
      { id := newId, toolName := toolName, args := args, createdAt := createdAt }
    { response := RequestResult.confirmRequiredWith pending
      store := fun k => if k = pendingKey conversationId then some pending else store k
      executed := [] }
  else
    { response := RequestResult.immediate (executeTool reg toolName args)
      store := store
      executed := [toolName] }

/-! ## Streamed tool-call delta accumulation (src/lib/agent/agent.ts,
`streamCompletion` stream-consumption loop)

A `ToolCallDelta` is one entry of `delta.toolCalls`.  The optional string
fields (`toolCall.id`, `toolCall.function?.name`,
`toolCall.function?.arguments`) are modelled as `String` with `""` for
absent, which matches the source exactly: every use site tests them for
JavaScript truthiness or defaults them with `|| ''`. -/

structure ToolCallDelta where
  index : Nat
  id : String
  name : String
  arguments : String
deriving DecidableEq, Repr

/-- The streamed AG-UI events relevant to the verified code paths
(`AGUIEventType` values from utils.ts, with the payload fields the source
sends). -/
inductive AGUIEvent where
  | textMessageContent (delta : String)
  | toolCallStart (toolCallName : String)
  | toolCallArgs (toolCallName : String) (delta : String)
  | toolCallResult (toolCallName : String) (content : String)
deriving DecidableEq, Repr

/-- The `toolCalls` JavaScript `Map<number, ToolCall>`: an association
list in key-insertion order (JavaScript maps preserve insertion order,
which `Array.from(toolCalls.values())` later relies on). -/
def mapLookup (m : List (Nat × ToolCall)) (i : Nat) : Option ToolCall :=
  (m.find? (fun p => p.1 == i)).map (fun p => p.2)

/-- `toolCalls.has(index)`. -/
def mapHas (m : List (Nat × ToolCall)) (i : Nat) : Bool :=
  m.any (fun p => p.1 == i)

/-- `toolCalls.set(index, v)`: update in place if present, else append. -/
def mapSet (m : List (Nat × ToolCall)) (i : Nat) (v : ToolCall) : List (Nat × ToolCall) :=
  if mapHas m i then m.map (fun p => if p.1 == i then (i, v) else p)
  else m ++ [(i, v)]

/-- Accumulator state while consuming one streamed completion: the
per-round `toolCalls` map and the events sent so far. -/
structure ToolCallAccState where
  calls : List (Nat × ToolCall)
  events : List AGUIEvent
deriving Repr

/-- Processing of a single tool-call delta (agent.ts lines 169-197):
fetch or create the entry for `toolCall.index`; set the function name on
the first delta that carries one and never overwrite it; append an
arguments fragment (emitting `TOOL_CALL_ARGS` for it); emit
`TOOL_CALL_START` if the index was not yet in the map (after the delta
has been folded in); store the entry. -/
def processToolCallDelta (st : ToolCallAccState) (d : ToolCallDelta) : ToolCallAccState :=
  let existing0 := (mapLookup st.calls d.index).getD
    { id := d.id, function := { name := d.name, arguments := "" } }
  let existing1 :=
    if d.name ≠ "" ∧ existing0.function.name = "" then
      { existing0 with function := { existing0.function with name := d.name } }
    else existing0
  let argEvents :=
    if d.arguments ≠ "" then [AGUIEvent.toolCallArgs existing1.function.name d.arguments]
    else []
  let existing2 :=
    if d.arguments ≠ "" then
      { existing1 with function :=
          { existing1.function with arguments := existing1.function.arguments ++ d.arguments } }
    else existing1
  let startEvents :=
    if mapHas st.calls d.index then [] else [AGUIEvent.toolCallStart existing2.function.name]
  { calls := mapSet st.calls d.index existing2
    events := st.events ++ argEvents ++ startEvents }

/-- Folding a whole delta sequence from the per-round initial state. -/
def processToolCallDeltas (ds : List ToolCallDelta) : ToolCallAccState :=
  ds.foldl processToolCallDelta { calls := [], events := [] }

/-- The function name carried by the first delta that carries one
(`""` if none does). -/
def firstDeltaName (ds : List ToolCallDelta) : String :=
  ((ds.find? (fun d => d.name != "")).map ToolCallDelta.name).getD ""

/-- Concatenation of argument-text fragments in arrival order. -/
def concatFragments (l : List String) : String :=
  l.foldl (fun acc s => acc ++ s) ""

/-- Number of `TOOL_CALL_START` events in an event list. -/
def countStarts (events : List AGUIEvent) : Nat :=
  events.countP (fun e =>
    match e with
    | AGUIEvent.toolCallStart _ => true
    | _ => false)

/-! ## Orchestration loop (src/lib/agent/agent.ts, `streamCompletion`)

One streamed model response is a list of `StreamChunk`s.  The model is a
function from the current message list to the chunks it streams
(`openaiClient.chat.send` with temperature, tool definitions and tool
choice are external and folded into this function).  Memory persistence
(`appendAndMaybeSummarize`) has no effect on control flow or on the event
stream and is elided; `JSON.parse` of argument text, `JSON.stringify` of
results and `formatMcpConfirmTag` are opaque environment functions. -/

structure StreamChunk where
  content : String
  toolCalls : List ToolCallDelta
deriving Repr

/-- Per-round state of the stream-consumption loop: `assistantContent`
plus the tool-call accumulator and the events emitted so far. -/
structure RoundState where
  assistantContent : String
  acc : ToolCallAccState
deriving Repr

/-- Consuming one streamed chunk (agent.ts lines 154-200): a non-empty
content delta is appended to `assistantContent` and emitted as
`TEXT_MESSAGE_CONTENT`; then each tool-call delta is folded in. -/
def processChunk (st : RoundState) (ck : StreamChunk) : RoundState :=
  let st1 :=
    if ck.content ≠ "" then
      { st with
          assistantContent := st.assistantContent ++ ck.content
          acc := { st.acc with
                    events := st.acc.events ++ [AGUIEvent.textMessageContent ck.content] } }
    else st
  { st1 with acc := ck.toolCalls.foldl processToolCallDelta st1.acc }

/-- The fresh per-round state (`assistantContent = ''`,
`toolCalls = new Map()`). -/
def roundInit : RoundState :=
  { assistantContent := "", acc := { calls := [], events := [] } }

/-- The environment of a `streamCompletion` run over argument type `A`. -/
structure AgentEnv (A : Type) where
  registry : List (ToolMetadata A)
  mcpConfirmRequired : Bool
  parseArgs : String → A
  serializeOutcome : ToolOutcome → String
  confirmTag : String → String
  newId : String
  now : String

/-- `maxLoops` from agent.ts line 125. -/
def maxLoops : Nat := 5

/-- The notice emitted when the iteration bound is reached
(agent.ts line 263). -/
def maxLoopsNotice : String := "\n\n[系统提示: 达到最大工具调用次数，请简化问题]"

/-- Result of the tool-call dispatch `for` loop inside one round:
`confirmed` models the early `return` taken when a call requires
confirmation; `done` carries the updated context and `needsContinue`. -/
inductive CallsOutcome (A : Type) where
  | confirmed (events : List AGUIEvent) (store : PendingStore A)
  | done (events : List AGUIEvent) (store : PendingStore A)
      (messages : List CompletionMessage) (needsContinue : Bool)

/-- The `for (const call of toolCallArray)` loop (agent.ts lines 219-256):
each call is routed through `requestToolCall`; a confirmation request
emits the confirmation tag and returns from `streamCompletion`; an
immediate result is emitted as `TOOL_CALL_RESULT`, appended as a
tool-role message, and marks `needsContinue`. -/
def processCalls {A : Type} (env : AgentEnv A) (conversationId : String) :
    List ToolCall → List CompletionMessage → PendingStore A → List AGUIEvent → Bool →
    CallsOutcome A
  | [], messages, store, events, needsContinue =>
      CallsOutcome.done events store messages needsContinue
  | call :: rest, messages, store, events, _needsContinue =>
    let toolName := call.function.name
    let args := env.parseArgs call.function.arguments
    let r := requestToolCall env.mcpConfirmRequired env.registry store conversationId
      toolName args env.newId env.now
    match r.response with
    | RequestResult.confirmRequiredWith _ =>
        CallsOutcome.confirmed
          (events ++ [AGUIEvent.textMessageContent (env.confirmTag toolName)]) r.store
    | RequestResult.immediate result =>
        processCalls env conversationId rest
          (messages ++ [{ role := "tool"
                          content := some (env.serializeOutcome result)
                          tool_call_id := some call.id }])
          r.store
          (events ++ [AGUIEvent.toolCallResult toolName (env.serializeOutcome result)])
          true

/-- Result of a `streamCompletion` run: the emitted events, the number of
completion rounds performed (model invocations), and the final
pending-call store and message context. -/
structure LoopResult (A : Type) where
  events : List AGUIEvent
  rounds : Nat
  store : PendingStore A
  messages : List CompletionMessage

/-- The `while (loopCount < maxLoops)` loop of `streamCompletion`
(agent.ts lines 127-272), one iteration per recursive step.  Each entered
iteration performs exactly one completion round (one model invocation). -/
def streamCompletionLoop {A : Type} (env : AgentEnv A)
    (model : List CompletionMessage → List StreamChunk) (conversationId : String)
    (messages : List CompletionMessage) (store : PendingStore A)
    (events : List AGUIEvent) (loopCount : Nat) : LoopResult A :=
  if _h : loopCount < maxLoops then
    let loopCount1 := loopCount + 1
    let isLastLoop := maxLoops ≤ loopCount1
    let rs := (model messages).foldl processChunk roundInit
    let events1 := events ++ rs.acc.events
    if rs.acc.calls.isEmpty then
      { events := events1, rounds := loopCount1, store := store, messages := messages }
    else
      let toolCallArray := rs.acc.calls.map (fun p => p.2)
      let messages1 := messages ++
        [{ role := "assistant"
           content := if rs.assistantContent = "" then none else some rs.assistantContent
           tool_calls := toolCallArray }]
      match processCalls env conversationId toolCallArray messages1 store events1 false with
      | CallsOutcome.confirmed ev st =>
          { events := ev, rounds := loopCount1, store := st, messages := messages1 }
      | CallsOutcome.done ev st msgs needsContinue =>
        if isLastLoop ∧ needsContinue then
          { events := ev ++ [AGUIEvent.textMessageContent maxLoopsNotice]
            rounds := loopCount1, store := st, messages := msgs }
        else if needsContinue = false then
          { events := ev, rounds := loopCount1, store := st, messages := msgs }
        else
          streamCompletionLoop env model conversationId msgs st ev loopCount1
  else
    { events := events, rounds := loopCount, store := store, messages := messages }
termination_by maxLoops - loopCount
decreasing_by simp only [maxLoops] at *; omega

/-- `streamCompletion` entry: `loopCount = 0`, no events yet. -/
def streamCompletion {A : Type} (env : AgentEnv A)
    (model : List CompletionMessage → List StreamChunk) (conversationId : String)
    (messages : List CompletionMessage) (store : PendingStore A) : LoopResult A :=
  streamCompletionLoop env model conversationId messages store [] 0

/-- The tool calls accumulated from one streamed response. -/
def roundCalls (chunks : List StreamChunk) : List (Nat × ToolCall) :=
  ((chunks.foldl processChunk roundInit)).acc.calls

/-! ## RAG search (src/lib/agent/rag.ts, `search`)

The stored chunk collection, the embedding space `E` and the score type
`S` are parameters; the source instantiates `E := List Float`,
`S := Float` with `sim := cosineSimilarity` (modelled over `ℝ` below) and
`embed := embedText`.  The two booleans in the result record whether the
embedding call and the chunk load were performed, to state the
empty-query short-circuit. -/

structure RagChunkS (E S : Type) where
  id : String
  content : String
  embedding : E
  score : S
deriving Repr

structure SearchTrace (E S : Type) where
  results : List (RagChunkS E S)
  embedCalled : Bool
  chunksLoaded : Bool
deriving Repr

/-- The comparator `(a, b) => b.score - a.score` used with the stable
`Array.prototype.sort`: keep `a` before `b` when `b.score ≤ a.score`. -/
def scoreDescBefore {E S : Type} [LinearOrder S] (a b : RagChunkS E S) : Bool :=
  decide (b.score ≤ a.score)

/-- `search` from rag.ts: empty query short-circuits to no results with no
embedding call and no chunk load; otherwise every chunk is scored against
the query embedding, entries below `scoreThreshold` are discarded before
sorting, the rest are sorted descending by score, and the first `topK`
are returned. -/
def search {E S : Type} [LinearOrder S] (embed : String → E) (sim : E → E → S)
    (chunks : List (RagChunkS E S)) (query : String) (topK : Nat) (scoreThreshold : S) :
    SearchTrace E S :=
  if query = "" then { results := [], embedCalled := false, chunksLoaded := false }
  else
    let queryEmbedding := embed query
    let scored :=
      (((chunks.map (fun chunk =>
          let score := sim queryEmbedding chunk.embedding
          if score < scoreThreshold then none
          else some { chunk with score := score })).filterMap id).mergeSort
        scoreDescBefore).take topK
    { results := scored, embedCalled := true, chunksLoaded := true }

/-! ## Cosine similarity (src/lib/agent/rag.ts, `cosineSimilarity`)

Modelled over `ℝ`; the claim itself states the result only up to the
tolerance induced by the epsilon term.  The source loop reads `a[i]` and
`b[i]` for `i < a.length`; `getD _ 0` matches it on every input with
`a.length = b.length` (the regime of the claim). -/

/-- The accumulator loop of `cosineSimilarity`: `(dot, normA, normB)`. -/
noncomputable def cosineAcc (a b : List ℝ) : ℝ × ℝ × ℝ :=
  (List.range a.length).foldl
    (fun acc i =>
      (acc.1 + a.getD i 0 * b.getD i 0,
       acc.2.1 + a.getD i 0 * a.getD i 0,
       acc.2.2 + b.getD i 0 * b.getD i 0))
    (0, 0, 0)

/-- `cosineSimilarity` from rag.ts:
`dot / (Math.sqrt(normA) * Math.sqrt(normB) + 1e-8)`. -/
noncomputable def cosineSimilarity (a b : List ℝ) : ℝ :=
  let acc := cosineAcc a b
  acc.1 / (Real.sqrt acc.2.1 * Real.sqrt acc.2.2 + 1e-8)

/-- The squared euclidean norm `‖a‖²` of a vector. -/
def normSq (a : List ℝ) : ℝ :=
  (a.map (fun x => x * x)).sum

/-- A concrete environment over `A := Unit` for evaluating the loop
model: a single confirmation-free tool, global confirmation policy
disabled, opaque serialization functions fixed to constants. -/
def sampleEnv : AgentEnv Unit :=
  { registry := [{ name := "ping"
                   requiresConfirmation := some false
                   parameters := none
                   execute := fun _ => Except.ok { success := true, message := some "pong" } }]
    mcpConfirmRequired := false
    parseArgs := fun _ => ()
    serializeOutcome := fun _ => "result"
    confirmTag := fun _ => "confirm"
    newId := "mcp_1"
    now := "t0" }

/-- A simulated model that streams one `ping` tool-call delta in every
completion round, regardless of the messages. -/
def sampleAlwaysToolModel : List CompletionMessage → List StreamChunk :=
  fun _ =>
    [{ content := ""
       toolCalls := [{ index := 0, id := "c1", name := "ping", arguments := "" }] }]

/-- The empty pending-call store. -/
def emptyPendingStore : PendingStore Unit := fun _ => none

/-- An environment with a confirmation-gated tool (the `delete_file`
pattern) under the enabled global confirmation policy. -/
def confirmGateEnv : AgentEnv Unit :=
  { registry := [{ name := "delete_file"
                   requiresConfirmation := some true
                   parameters := none
                   execute := fun _ => Except.ok { success := true, message := some "done" } }]
    mcpConfirmRequired := true
    parseArgs := fun _ => ()
    serializeOutcome := fun _ => "result"
    confirmTag := fun _ => "confirm"
    newId := "mcp_2"
    now := "t0" }

/-- A simulated model that streams one `delete_file` tool-call delta in
every completion round (it ignores the messages, so every round of every
turn receives the same tool call). -/
def confirmGateModel : List CompletionMessage → List StreamChunk :=
  fun _ =>
    [{ content := ""
       toolCalls := [{ index := 0, id := "c2", name := "delete_file", arguments := "" }] }]

/-! # Theorems -/

/-! ## Claim C5: summarization trigger -/

/-- Claim C5: `shouldSummarize` returns true if and only if the message
count has reached the configured cadence AND the estimated total token
count exceeds the configured threshold; the defaults are 12 and 3000.  In
particular count reached with tokens at or below the threshold yields
false, and tokens above the threshold with fewer messages yields false. -/
theorem shouldSummarize_iff_both_gates :
    (∀ (cfg : AgentConfig) (messages : List CompletionMessage),
      shouldSummarize cfg messages = true ↔
        cfg.memorySummaryEvery ≤ messages.length ∧
          cfg.memorySummaryMaxTokens < getTotalTokens messages) ∧
    agentConfig.memorySummaryEvery = 12 ∧ agentConfig.memorySummaryMaxTokens = 3000 := by
  refine ⟨fun cfg messages => ?_, rfl, rfl⟩
  by_cases h : messages.length < cfg.memorySummaryEvery
  · simp only [shouldSummarize, if_pos h, Bool.false_eq_true, false_iff]
    intro hc
    omega
  · simp only [shouldSummarize, if_neg h, decide_eq_true_eq, gt_iff_lt]
    omega

/-! ## Claim C6: summary history bound -/

theorem takeLast_length {α : Type} (n : Nat) (l : List α) :
    (takeLast n l).length = min n l.length := by
  simp only [takeLast, List.length_drop]
  omega

theorem takeLast_idem_append {α : Type} (a b : List α) :
    takeLast 3 (takeLast 3 a ++ b) = takeLast 3 (a ++ b) := by
  simp only [takeLast, List.length_append, List.length_drop,
    List.drop_append_eq_append_drop, List.drop_drop]
  congr 1
  · congr 1
    omega
  · congr 1
    omega

theorem takeLast_of_length_le {α : Type} (n : Nat) (l : List α) (h : l.length ≤ n) :
    takeLast n l = l := by
  have h0 : l.length - n = 0 := by omega
  rw [takeLast, h0, List.drop_zero]

theorem runSummarizeCycles_some_history (ss : List String) :
    ∀ (s : String) (h : List String), ss ≠ [] → h.length ≤ 3 →
      (runSummarizeCycles { summary := some s, summaryHistory := h } ss).summaryHistory =
        takeLast 3 (h ++ (s :: ss.dropLast).filter (fun x => x ≠ "")) := by
  induction ss with
  | nil => intro s h hne _; exact absurd rfl hne
  | cons x xs ih =>
    intro s h _ hlen
    by_cases hs : s = ""
    · have hstep : summarizeCycle { summary := some s, summaryHistory := h } x =
          { summary := some x, summaryHistory := h } := by
        simp [summarizeCycle, hs]
      show (xs.foldl summarizeCycle
        (summarizeCycle { summary := some s, summaryHistory := h } x)).summaryHistory = _
      rw [hstep]
      cases xs with
      | nil =>
        simp [runSummarizeCycles, hs, takeLast_of_length_le 3 h hlen]
      | cons y ys =>
        rw [show (y :: ys).foldl summarizeCycle { summary := some x, summaryHistory := h } =
          runSummarizeCycles { summary := some x, summaryHistory := h } (y :: ys) from rfl]
        rw [ih x h (by simp) hlen]
        simp [hs]
    · have hstep : summarizeCycle { summary := some s, summaryHistory := h } x =
          { summary := some x, summaryHistory := takeLast 3 (h ++ [s]) } := by
        simp [summarizeCycle, hs]
      show (xs.foldl summarizeCycle
        (summarizeCycle { summary := some s, summaryHistory := h } x)).summaryHistory = _
      rw [hstep]
      have hlen2 : (takeLast 3 (h ++ [s])).length ≤ 3 := by
        rw [takeLast_length]
        omega
      cases xs with
      | nil =>
        simp [runSummarizeCycles, hs]
      | cons y ys =>
        rw [show (y :: ys).foldl summarizeCycle
            { summary := some x, summaryHistory := takeLast 3 (h ++ [s]) } =
          runSummarizeCycles { summary := some x, summaryHistory := takeLast 3 (h ++ [s]) }
            (y :: ys) from rfl]
        rw [ih x (takeLast 3 (h ++ [s])) (by simp) hlen2, takeLast_idem_append]
        simp [hs, List.append_assoc]

theorem runSummarizeCycles_init_history (ss : List String) :
    (runSummarizeCycles memoryInit ss).summaryHistory =
      takeLast 3 (ss.dropLast.filter (fun x => x ≠ "")) := by
  cases ss with
  | nil => simp [runSummarizeCycles, memoryInit, takeLast]
  | cons x xs =>
    cases xs with
    | nil => simp [runSummarizeCycles, memoryInit, summarizeCycle, takeLast]
    | cons y ys =>
      show (runSummarizeCycles { summary := some x, summaryHistory := [] }
        (y :: ys)).summaryHistory = _
      rw [runSummarizeCycles_some_history (y :: ys) x [] (by simp) (by simp)]
      simp

/-- Counterexample to claim C6 as stated: over the five cycles
`["a", "", "b", "c", "d"]` (an empty summary string is reachable through
the or-empty fallback on the completion content), the truthiness check
`if (oldSummary)` skips the push of the superseded empty summary, so the
final history is `["a", "b", "c"]` and NOT the 3 most recently superseded
summaries `["", "b", "c"]`. -/
theorem summaryHistory_truthiness_cex :
    (runSummarizeCycles memoryInit ["a", "", "b", "c", "d"]).summaryHistory = ["a", "b", "c"] ∧
    takeLast 3 ((["a", "", "b", "c", "d"] : List String).dropLast) = ["", "b", "c"] ∧
    (["a", "b", "c"] : List String) ≠ ["", "b", "c"] := by
  decide

/-- Claim C6 (amended): the per-conversation summary-history list never
holds more than 3 entries; each cycle pushes the superseded summary only
when it is non-empty (the truthiness check skips an empty-string
summary), so in general the history is the last 3 NON-EMPTY superseded
summaries in oldest-to-newest order; in particular, after N > 3 cycles
whose superseded summaries are all non-empty, the history is exactly the
3 most recently superseded summaries in oldest-to-newest order. -/
theorem summaryHistory_bounded_by_three (ss : List String) :
    (runSummarizeCycles memoryInit ss).summaryHistory.length ≤ 3 ∧
    (runSummarizeCycles memoryInit ss).summaryHistory =
      takeLast 3 (ss.dropLast.filter (fun x => x ≠ "")) ∧
    (3 < ss.length → (∀ s ∈ ss.dropLast, s ≠ "") →
      (runSummarizeCycles memoryInit ss).summaryHistory = takeLast 3 ss.dropLast ∧
      (runSummarizeCycles memoryInit ss).summaryHistory.length = 3) := by
  have h := runSummarizeCycles_init_history ss
  refine ⟨?_, h, ?_⟩
  · rw [h, takeLast_length]
    omega
  · intro hlen hne
    have hf : ss.dropLast.filter (fun x => x ≠ "") = ss.dropLast := by
      rw [List.filter_eq_self]
      intro a ha
      simpa using hne a ha
    rw [h, hf]
    refine ⟨rfl, ?_⟩
    rw [takeLast_length, List.length_dropLast]
    omega

/-- Witness for the amended C6 at five concrete non-empty cycles: the
history is exactly the last three superseded summaries. -/
theorem summaryHistory_bounded_by_three_witness :
    (3 < (["s1", "s2", "s3", "s4", "s5"] : List String).length) ∧
    (∀ s ∈ (["s1", "s2", "s3", "s4", "s5"] : List String).dropLast, s ≠ "") ∧
    ((runSummarizeCycles memoryInit ["s1", "s2", "s3", "s4", "s5"]).summaryHistory =
        takeLast 3 (["s1", "s2", "s3", "s4", "s5"] : List String).dropLast ∧
      (runSummarizeCycles memoryInit ["s1", "s2", "s3", "s4", "s5"]).summaryHistory.length = 3) :=
  ⟨by decide, by decide,
    (summaryHistory_bounded_by_three ["s1", "s2", "s3", "s4", "s5"]).2.2 (by decide) (by decide)⟩

/-! ## Claim C7: chunking overlap -/

theorem chunkTextGo_getq {α : Type} (content : List α) (C step : Nat) (hstep : 0 < step) :
    ∀ (i idx : Nat), (chunkTextGo content C step idx).get? i =
      if idx + i * step < content.length then some ((content.drop (idx + i * step)).take C)
      else none := by
  intro i
  induction i with
  | zero =>
    intro idx
    rw [chunkTextGo]
    by_cases h : idx < content.length
    · rw [dif_pos ⟨hstep, h⟩]
      simp [h]
    · rw [dif_neg (by omega)]
      simp only [Nat.zero_mul, Nat.add_zero]
      rw [if_neg h]
      rfl
  | succ n ih =>
    intro idx
    rw [chunkTextGo]
    by_cases h : idx < content.length
    · rw [dif_pos ⟨hstep, h⟩]
      show (chunkTextGo content C step (idx + step)).get? n = _
      rw [ih (idx + step)]
      have harith : idx + step + n * step = idx + (n + 1) * step := by ring
      rw [harith]
    · rw [dif_neg (by omega)]
      rw [if_neg (by omega)]
      rfl

theorem chunkTextGo_flatten_drop {α : Type} (content : List α) (C O : Nat) (hO : O < C) :
    ∀ idx, ((chunkTextGo content C (C - O) idx).map (List.drop O)).flatten =
      content.drop (idx + O) := by
  have hstep : 0 < C - O := by omega
  suffices h : ∀ (n idx : Nat), content.length - idx ≤ n →
      ((chunkTextGo content C (C - O) idx).map (List.drop O)).flatten = content.drop (idx + O) by
    exact fun idx => h content.length idx (by omega)
  intro n
  induction n with
  | zero =>
    intro idx hle
    rw [chunkTextGo, dif_neg (by omega)]
    simp only [List.map_nil, List.flatten_nil]
    rw [eq_comm]
    exact List.drop_eq_nil_of_le (by omega)
  | succ n ih =>
    intro idx hle
    by_cases hidx : idx < content.length
    · rw [chunkTextGo, dif_pos ⟨hstep, hidx⟩]
      simp only [List.map_cons, List.flatten_cons]
      rw [ih (idx + (C - O)) (by omega)]
      rw [List.drop_take, List.drop_drop]
      have h1 : idx + (C - O) + O = (idx + O) + (C - O) := by omega
      have h2 : List.drop ((idx + O) + (C - O)) content =
          List.drop (C - O) (List.drop (idx + O) content) := (List.drop_drop ..).symm
      rw [h1, h2, List.take_append_drop]
    · rw [chunkTextGo, dif_neg (by omega)]
      simp only [List.map_nil, List.flatten_nil]
      rw [eq_comm]
      exact List.drop_eq_nil_of_le (by omega)

/-- Counterexample to claim C7 as stated: with input `[0,1,2,3,4]`
(length 5), chunk size 4 and overlap 2 (so overlap < chunk size), the
produced chunks are `[[0,1,2,3],[2,3,4],[4]]`, and the adjacent pair
`([2,3,4], [4])` does NOT satisfy "tail of length 2 equals head of
length 2": the tail is `[3,4]` while the head is `[4]` (the final chunk
is shorter than the overlap). -/
theorem chunkText_overlap_cex :
    ¬ adjacentOverlapOK (chunkText ([0, 1, 2, 3, 4] : List Nat) 4 2) 2 := by
  intro h
  have e : chunkText ([0, 1, 2, 3, 4] : List Nat) 4 2 = [[0, 1, 2, 3], [2, 3, 4], [4]] := by
    simp [chunkText, chunkTextGo]
  exact absurd (h 1 [2, 3, 4] [4] (by rw [e]; rfl) (by rw [e]; rfl)) (by decide)

/-- Claim C7 (amended): for overlap O < chunk size C, every adjacent
chunk pair whose EARLIER member has full length C overlaps by exactly O
(its tail of length O equals the head of length O of the next chunk; only
the pair ending at a final short chunk can overlap by less), and the
chunks in order cover the entire input: the first chunk followed by every
later chunk minus its first O elements reassembles the input exactly. -/
theorem chunkText_overlap_amended {α : Type} [DecidableEq α] (content : List α) (C O : Nat)
    (hO : O < C) :
    reassemble O (chunkText content C O) = content ∧
    (∀ i ci cj, (chunkText content C O).get? i = some ci →
      (chunkText content C O).get? (i + 1) = some cj → ci.length = C →
      takeLast O ci = cj.take O) := by
  constructor
  · unfold chunkText
    rw [chunkTextGo]
    by_cases h : 0 < content.length
    · rw [dif_pos ⟨by omega, h⟩]
      show ((content.drop 0).take C) ++
        ((chunkTextGo content C (C - O) (0 + (C - O))).map (List.drop O)).flatten = content
      rw [chunkTextGo_flatten_drop content C O hO]
      simp only [List.drop_zero, Nat.zero_add]
      have hco : (C - O) + O = C := by omega
      rw [hco, List.take_append_drop]
    · rw [dif_neg (by omega)]
      show ([] : List α) = content
      rw [eq_comm]
      exact List.length_eq_zero.mp (by omega)
  · intro i ci cj hci hcj hlen
    rw [chunkText, chunkTextGo_getq content C (C - O) (by omega)] at hci hcj
    by_cases ha : 0 + i * (C - O) < content.length
    · rw [if_pos ha] at hci
      by_cases hb : 0 + (i + 1) * (C - O) < content.length
      · rw [if_pos hb] at hcj
        obtain rfl : ci = (content.drop (0 + i * (C - O))).take C := (Option.some.inj hci).symm
        obtain rfl : cj = (content.drop (0 + (i + 1) * (C - O))).take C := (Option.some.inj hcj).symm
        rw [List.take_take, min_eq_left (le_of_lt hO)]
        rw [takeLast, hlen, List.drop_take, List.drop_drop]
        have hoc : C - (C - O) = O := by omega
        rw [hoc]
        congr 1
        ring_nf
      · rw [if_neg hb] at hcj
        exact absurd hcj (by simp)
    · rw [if_neg ha] at hci
      exact absurd hci (by simp)

/-- Witness for the amended C7 at input `[0,1,2,3,4]`, chunk size 4,
overlap 2. -/
theorem chunkText_overlap_amended_witness :
    (2 < 4) ∧
    (reassemble 2 (chunkText ([0, 1, 2, 3, 4] : List Nat) 4 2) = [0, 1, 2, 3, 4] ∧
      (∀ i ci cj, (chunkText ([0, 1, 2, 3, 4] : List Nat) 4 2).get? i = some ci →
        (chunkText ([0, 1, 2, 3, 4] : List Nat) 4 2).get? (i + 1) = some cj → ci.length = 4 →
        takeLast 2 ci = cj.take 2)) :=
  ⟨by decide, chunkText_overlap_amended [0, 1, 2, 3, 4] 4 2 (by decide)⟩

/-! ## Claim C4: tool-call delta accumulation -/

theorem find_map_update (m : List (Nat × ToolCall)) (i : Nat) (v : ToolCall)
    (h : mapHas m i = true) :
    (m.map (fun p => if p.1 == i then (i, v) else p)).find? (fun p => p.1 == i) = some (i, v) := by
  induction m with
  | nil => simp [mapHas] at h
  | cons p rest ih =>
    simp only [List.map_cons]
    by_cases hp : (p.1 == i) = true
    · rw [if_pos hp]
      exact List.find?_cons_of_pos _ (by simp)
    · rw [if_neg hp, @List.find?_cons_of_neg _ (fun q => q.1 == i) p _ hp]
      apply ih
      simp only [mapHas, List.any_cons] at h ⊢
      simpa [hp] using h

theorem find_append_fresh (m : List (Nat × ToolCall)) (i : Nat) (v : ToolCall)
    (h : mapHas m i = false) :
    (m ++ [(i, v)]).find? (fun p => p.1 == i) = some (i, v) := by
  induction m with
  | nil => simp
  | cons p rest ih =>
    simp only [mapHas, List.any_cons, Bool.or_eq_false_iff] at h
    rw [List.cons_append, @List.find?_cons_of_neg _ (fun q => q.1 == i) p _ (by simp [h.1])]
    exact ih h.2

theorem mapLookup_mapSet_self (m : List (Nat × ToolCall)) (i : Nat) (v : ToolCall) :
    mapLookup (mapSet m i v) i = some v := by
  unfold mapLookup mapSet
  by_cases h : mapHas m i
  · rw [if_pos h, find_map_update m i v h]
    rfl
  · rw [if_neg h, find_append_fresh m i v (by simpa using h)]
    rfl

theorem mapLookup_none_of_not_has (m : List (Nat × ToolCall)) (i : Nat)
    (h : mapHas m i = false) : mapLookup m i = none := by
  unfold mapHas at h
  rw [List.any_eq_false] at h
  unfold mapLookup
  cases hf : m.find? (fun p => p.1 == i) with
  | none => rfl
  | some p =>
    have hp := List.find?_some hf
    have hm := List.mem_of_find?_eq_some hf
    exact absurd hp (h p hm)

theorem concatFragments_go (l : List String) :
    ∀ a : String, l.foldl (fun acc s => acc ++ s) a = a ++ concatFragments l := by
  induction l with
  | nil => intro a; simp [concatFragments, String.append_empty]
  | cons x xs ih =>
    intro a
    show xs.foldl (fun acc s => acc ++ s) (a ++ x) = a ++ concatFragments (x :: xs)
    rw [ih (a ++ x)]
    show a ++ x ++ concatFragments xs = a ++ xs.foldl (fun acc s => acc ++ s) ("" ++ x)
    rw [ih ("" ++ x), String.empty_append, String.append_assoc]

theorem concatFragments_cons (s : String) (l : List String) :
    concatFragments (s :: l) = s ++ concatFragments l := by
  show l.foldl (fun acc s => acc ++ s) ("" ++ s) = s ++ concatFragments l
  rw [concatFragments_go l ("" ++ s), String.empty_append]

theorem processToolCallDelta_calls_found (st : ToolCallAccState) (d : ToolCallDelta)
    (cid cname cargs : String) (h : mapLookup st.calls d.index = some ⟨cid, cname, cargs⟩) :
    (processToolCallDelta st d).calls = mapSet st.calls d.index
      ⟨cid, (if d.name ≠ "" ∧ cname = "" then d.name else cname),
            (if d.arguments ≠ "" then cargs ++ d.arguments else cargs)⟩ := by
  simp only [processToolCallDelta, h, Option.getD_some]
  by_cases h1 : d.name ≠ "" ∧ cname = ""
  · rw [if_pos h1]
    by_cases h2 : d.arguments ≠ ""
    · rw [if_pos h2, if_pos h2]
      simp [h1]
    · rw [if_neg h2, if_neg h2]
      simp [h1]
  · rw [if_neg h1]
    by_cases h2 : d.arguments ≠ ""
    · rw [if_pos h2, if_pos h2]
      simp [h1]
    · rw [if_neg h2, if_neg h2]
      simp [h1]

theorem processToolCallDelta_fresh (st : ToolCallAccState) (d : ToolCallDelta)
    (h : mapHas st.calls d.index = false) :
    processToolCallDelta st d =
      { calls := st.calls ++ [(d.index, ⟨d.id, d.name, d.arguments⟩)]
        events := st.events ++
          (if d.arguments ≠ "" then [AGUIEvent.toolCallArgs d.name d.arguments] else []) ++
          [AGUIEvent.toolCallStart d.name] } := by
  have hnone := mapLookup_none_of_not_has st.calls d.index h
  by_cases h2 : d.arguments = ""
  · simp [processToolCallDelta, hnone, mapSet, h, h2]
  · simp [processToolCallDelta, hnone, mapSet, h, h2, String.empty_append]

theorem processDeltas_single_index (i : Nat) :
    ∀ (ds : List ToolCallDelta) (st : ToolCallAccState) (cid cname cargs : String),
      (∀ d ∈ ds, d.index = i) → mapLookup st.calls i = some ⟨cid, cname, cargs⟩ →
      ∃ c2, mapLookup (ds.foldl processToolCallDelta st).calls i = some c2 ∧
        c2.function.name = (if cname = "" then firstDeltaName ds else cname) ∧
        c2.function.arguments = cargs ++ concatFragments (ds.map ToolCallDelta.arguments) := by
  intro ds
  induction ds with
  | nil =>
    intro st cid cname cargs _ hc
    refine ⟨⟨cid, cname, cargs⟩, hc, ?_, by simp [concatFragments, String.append_empty]⟩
    by_cases h : cname = "" <;> simp [firstDeltaName, h]
  | cons d rest ih =>
    intro st cid cname cargs hall hc
    have hdi : d.index = i := hall d (by simp)
    have hc' : mapLookup st.calls d.index = some ⟨cid, cname, cargs⟩ := by rw [hdi]; exact hc
    have hstep := processToolCallDelta_calls_found st d cid cname cargs hc'
    have hlk : mapLookup (processToolCallDelta st d).calls i = some
        ⟨cid, (if d.name ≠ "" ∧ cname = "" then d.name else cname),
              (if d.arguments ≠ "" then cargs ++ d.arguments else cargs)⟩ := by
      rw [hstep, ← hdi]
      exact mapLookup_mapSet_self ..
    obtain ⟨c2, h1, h2, h3⟩ := ih (processToolCallDelta st d) cid _ _
      (fun x hx => hall x (by simp [hx])) hlk
    refine ⟨c2, h1, ?_, ?_⟩
    · rw [h2]
      by_cases hcn : cname = ""
      · by_cases hdn : d.name = ""
        · simp [firstDeltaName, hcn, hdn]
        · simp [firstDeltaName, hcn, hdn]
      · simp [hcn]
    · rw [h3, List.map_cons, concatFragments_cons]
      by_cases hda : d.arguments = ""
      · simp [hda, String.empty_append]
      · simp [hda, String.append_assoc]

/-- Claim C4: for a sequence of tool-call deltas sharing one call index,
the accumulator sets the function name from the first delta that carries
a name and never overwrites it, and concatenates the argument fragments
in arrival order, so that for any split of the original argument text
into fragments the accumulated string is exactly the original. -/
theorem toolCallAccumulation (i : Nat) (ds : List ToolCallDelta) (hne : ds ≠ [])
    (hidx : ∀ d ∈ ds, d.index = i) :
    ∃ c, mapLookup (processToolCallDeltas ds).calls i = some c ∧
      c.function.name = firstDeltaName ds ∧
      c.function.arguments = concatFragments (ds.map ToolCallDelta.arguments) ∧
      (∀ original : String,
        concatFragments (ds.map ToolCallDelta.arguments) = original →
        c.function.arguments = original) := by
  cases ds with
  | nil => exact absurd rfl hne
  | cons d rest =>
    have hdi : d.index = i := hidx d (by simp)
    have hcalls1 : (processToolCallDelta ⟨[], []⟩ d).calls =
        [(d.index, ⟨d.id, d.name, d.arguments⟩)] := by
      rw [processToolCallDelta_fresh ⟨[], []⟩ d rfl]
      simp
    have hlk : mapLookup (processToolCallDelta ⟨[], []⟩ d).calls i =
        some ⟨d.id, d.name, d.arguments⟩ := by
      rw [hcalls1]
      simp [mapLookup, hdi]
    obtain ⟨c2, h1, h2, h3⟩ := processDeltas_single_index i rest (processToolCallDelta ⟨[], []⟩ d)
      d.id d.name d.arguments (fun x hx => hidx x (by simp [hx])) hlk
    refine ⟨c2, h1, ?_, ?_, ?_⟩
    · rw [h2]
      by_cases hdn : d.name = "" <;> simp [firstDeltaName, hdn]
    · rw [h3, List.map_cons, concatFragments_cons]
    · intro o ho
      rw [← ho, h3, List.map_cons, concatFragments_cons]

/-- Witness for C4: the argument text `abcd` split into fragments `ab`
and `cd` at index 0, the name carried only by the first delta. -/
theorem toolCallAccumulation_witness :
    ([({ index := 0, id := "i1", name := "calculate", arguments := "ab" } : ToolCallDelta),
      { index := 0, id := "", name := "", arguments := "cd" }] ≠ []) ∧
    (∃ c, mapLookup (processToolCallDeltas
        [{ index := 0, id := "i1", name := "calculate", arguments := "ab" },
         { index := 0, id := "", name := "", arguments := "cd" }]).calls 0 = some c ∧
      c.function.name = firstDeltaName
        [{ index := 0, id := "i1", name := "calculate", arguments := "ab" },
         { index := 0, id := "", name := "", arguments := "cd" }] ∧
      c.function.arguments = concatFragments
        (([{ index := 0, id := "i1", name := "calculate", arguments := "ab" },
           { index := 0, id := "", name := "", arguments := "cd" }] : List ToolCallDelta).map
          ToolCallDelta.arguments) ∧
      (∀ original : String,
        concatFragments
          (([{ index := 0, id := "i1", name := "calculate", arguments := "ab" },
             { index := 0, id := "", name := "", arguments := "cd" }] : List ToolCallDelta).map
            ToolCallDelta.arguments) = original →
        c.function.arguments = original)) :=
  ⟨by decide,
    toolCallAccumulation 0
      [{ index := 0, id := "i1", name := "calculate", arguments := "ab" },
       { index := 0, id := "", name := "", arguments := "cd" }]
      (by decide) (by decide)⟩

/-! ## Claim C10: TOOL_CALL_START ordering and uniqueness -/

theorem length_mapSet (m : List (Nat × ToolCall)) (i : Nat) (v : ToolCall) :
    (mapSet m i v).length = if mapHas m i = true then m.length else m.length + 1 := by
  unfold mapSet
  by_cases h : mapHas m i = true
  · rw [if_pos h, if_pos h, List.length_map]
  · rw [if_neg h, if_neg h, List.length_append]
    rfl

theorem processToolCallDelta_calls_shape (st : ToolCallAccState) (d : ToolCallDelta) :
    ∃ v, (processToolCallDelta st d).calls = mapSet st.calls d.index v :=
  ⟨_, rfl⟩

theorem calls_length_step (st : ToolCallAccState) (d : ToolCallDelta) :
    (processToolCallDelta st d).calls.length =
      st.calls.length + (if mapHas st.calls d.index = true then 0 else 1) := by
  obtain ⟨v, hv⟩ := processToolCallDelta_calls_shape st d
  rw [hv, length_mapSet]
  by_cases h : mapHas st.calls d.index = true
  · rw [if_pos h, if_pos h]
    omega
  · rw [if_neg h, if_neg h]

theorem countStarts_step (st : ToolCallAccState) (d : ToolCallDelta) :
    countStarts (processToolCallDelta st d).events =
      countStarts st.events + (if mapHas st.calls d.index = true then 0 else 1) := by
  by_cases h : mapHas st.calls d.index = true <;> by_cases h2 : d.arguments = "" <;>
    simp [processToolCallDelta, countStarts, List.countP_append, h, h2]

theorem starts_eq_calls_growth :
    ∀ (ds : List ToolCallDelta) (st : ToolCallAccState),
      countStarts (ds.foldl processToolCallDelta st).events + st.calls.length =
        countStarts st.events + (ds.foldl processToolCallDelta st).calls.length := by
  intro ds
  induction ds with
  | nil => intro st; rfl
  | cons d rest ih =>
    intro st
    show countStarts (rest.foldl processToolCallDelta (processToolCallDelta st d)).events + _ =
      countStarts st.events + (rest.foldl processToolCallDelta (processToolCallDelta st d)).calls.length
    have h1 := ih (processToolCallDelta st d)
    have h2 := calls_length_step st d
    have h3 := countStarts_step st d
    omega

theorem mapHas_keys (m : List (Nat × ToolCall)) (j : Nat) :
    mapHas m j = (m.map Prod.fst).any (fun k => k == j) := by
  induction m with
  | nil => rfl
  | cons p rest ih => simp [mapHas, List.any_cons] at ih ⊢; rw [ih]

theorem keys_mapSet_has (m : List (Nat × ToolCall)) (i : Nat) (v : ToolCall)
    (h : mapHas m i = true) :
    (mapSet m i v).map Prod.fst = m.map Prod.fst := by
  unfold mapSet
  rw [if_pos h]
  clear h
  induction m with
  | nil => rfl
  | cons p rest ih =>
    by_cases hp : (p.1 == i) = true
    · have heq : p.1 = i := by simpa using hp
      simp only [List.map_cons, if_pos hp, ih]
      rw [heq]
    · simp only [List.map_cons, if_neg hp, ih]

theorem mapHas_mapSet (m : List (Nat × ToolCall)) (i : Nat) (v : ToolCall) (j : Nat) :
    mapHas (mapSet m i v) j = (mapHas m j || (i == j)) := by
  by_cases h : mapHas m i = true
  · rw [mapHas_keys, keys_mapSet_has m i v h, ← mapHas_keys]
    by_cases hij : (i == j) = true
    · have heq : i = j := by simpa using hij
      subst heq
      rw [h]
      simp
    · simp [hij]
  · unfold mapSet
    rw [if_neg h]
    unfold mapHas
    rw [List.any_append]
    simp

theorem mapHas_fold (ds : List ToolCallDelta) :
    ∀ (st : ToolCallAccState) (j : Nat),
      mapHas (ds.foldl processToolCallDelta st).calls j =
        (mapHas st.calls j || ds.any (fun d => d.index == j)) := by
  induction ds with
  | nil => intro st j; simp
  | cons d rest ih =>
    intro st j
    show mapHas (rest.foldl processToolCallDelta (processToolCallDelta st d)).calls j = _
    rw [ih (processToolCallDelta st d) j]
    obtain ⟨v, hv⟩ := processToolCallDelta_calls_shape st d
    rw [hv, mapHas_mapSet]
    simp [Bool.or_assoc]

theorem not_mem_keys_of_not_has (m : List (Nat × ToolCall)) (i : Nat)
    (h : mapHas m i = false) : i ∉ m.map Prod.fst := by
  intro hmem
  obtain ⟨p, hp, hpi⟩ := List.mem_map.mp hmem
  unfold mapHas at h
  rw [List.any_eq_false] at h
  exact absurd (show (p.1 == i) = true by simp [hpi]) (by simpa using h p hp)

theorem keys_nodup_mapSet (m : List (Nat × ToolCall)) (i : Nat) (v : ToolCall)
    (h : ((m.map Prod.fst).Nodup)) : ((mapSet m i v).map Prod.fst).Nodup := by
  by_cases hh : mapHas m i = true
  · rw [keys_mapSet_has m i v hh]
    exact h
  · unfold mapSet
    rw [if_neg (by simp [hh])]
    rw [List.map_append]
    rw [List.nodup_append]
    refine ⟨h, by simp, ?_⟩
    intro a ha hb
    have haa : a = i := by simpa using hb
    rw [haa] at ha
    exact not_mem_keys_of_not_has m i (by simpa using hh) ha

theorem keys_nodup_fold (ds : List ToolCallDelta) :
    ∀ (st : ToolCallAccState), ((st.calls.map Prod.fst).Nodup) →
      (((ds.foldl processToolCallDelta st).calls.map Prod.fst).Nodup) := by
  induction ds with
  | nil => intro st h; exact h
  | cons d rest ih =>
    intro st h
    show (((rest.foldl processToolCallDelta (processToolCallDelta st d)).calls.map Prod.fst).Nodup)
    apply ih
    obtain ⟨v, hv⟩ := processToolCallDelta_calls_shape st d
    rw [hv]
    exact keys_nodup_mapSet st.calls d.index v h

/-- Claim C10: `TOOL_CALL_START` is emitted exactly once per tool-call
index — the number of START events equals the number of accumulated map
entries, whose keys are exactly the distinct indices seen and carry no
duplicates — and it is emitted only after the first delta of its index
has been fully processed: when that first delta carries a non-empty
arguments fragment, the `TOOL_CALL_ARGS` event for the fragment precedes
the `TOOL_CALL_START` event. -/
theorem toolCallStart_once_after_first_delta :
    (∀ ds : List ToolCallDelta,
      countStarts (processToolCallDeltas ds).events = (processToolCallDeltas ds).calls.length ∧
      (((processToolCallDeltas ds).calls.map Prod.fst).Nodup) ∧
      (∀ j, mapHas (processToolCallDeltas ds).calls j = true ↔
        j ∈ ds.map ToolCallDelta.index)) ∧
    (∀ (st : ToolCallAccState) (d : ToolCallDelta),
      mapHas st.calls d.index = false → d.arguments ≠ "" →
      (processToolCallDelta st d).events =
        st.events ++ [AGUIEvent.toolCallArgs d.name d.arguments,
                      AGUIEvent.toolCallStart d.name]) := by
  constructor
  · intro ds
    refine ⟨?_, ?_, ?_⟩
    · have h := starts_eq_calls_growth ds { calls := [], events := [] }
      simpa [processToolCallDeltas, countStarts] using h
    · exact keys_nodup_fold ds { calls := [], events := [] } (by simp)
    · intro j
      have he : processToolCallDeltas ds =
          ds.foldl processToolCallDelta { calls := [], events := [] } := rfl
      rw [he, mapHas_fold ds { calls := [], events := [] } j]
      simp [mapHas, List.any_eq_true, List.mem_map]
  · intro st d h hargs
    rw [processToolCallDelta_fresh st d h, if_pos hargs]
    simp

/-- Witness for C10 at a concrete fresh delta whose first fragment is
non-empty: ARGS is emitted strictly before START. -/
theorem toolCallStart_once_after_first_delta_witness :
    (mapHas (({ calls := [], events := [] } : ToolCallAccState)).calls 0 = false) ∧
    ("ab" ≠ "") ∧
    ((processToolCallDelta { calls := [], events := [] }
        { index := 0, id := "i9", name := "tool9", arguments := "ab" }).events =
      ({ calls := [], events := [] } : ToolCallAccState).events ++
        [AGUIEvent.toolCallArgs "tool9" "ab", AGUIEvent.toolCallStart "tool9"]) :=
  ⟨rfl, by decide,
    toolCallStart_once_after_first_delta.2 { calls := [], events := [] }
      { index := 0, id := "i9", name := "tool9", arguments := "ab" } rfl (by decide)⟩

/-! ## Claim C3: tool execution never raises past the execution boundary -/

/-- Claim C3: the exported tool-execution boundary (`executeTool` in
mcp.ts, wrapping `ToolRegistry.execute`) is total and returns exactly the
structured case analysis of the spec: schema-validation failure and an
unknown name yield `{success:false, message}` instead of a raised error,
and any exception thrown by the tool body is caught and converted to
`{success:false, message}` — so a tool-execution failure is never fatal
to the conversation turn. -/
theorem executeTool_never_raises {A : Type} (reg : List (ToolMetadata A)) (toolName : String)
    (args : A) :
    executeTool reg toolName args = executeToolSpec reg toolName args := by
  cases h : getTool reg toolName with
  | none => simp [executeTool, executeToolSpec, registryExecute, h]
  | some tool =>
    cases hp : tool.parameters with
    | none =>
      simp [executeTool, executeToolSpec, registryExecute, validateToolArgs, h, hp]
    | some parse =>
      cases hr : parse args with
      | ok u =>
        cases u
        simp [executeTool, executeToolSpec, registryExecute, validateToolArgs, h, hp, hr]
      | error m =>
        simp [executeTool, executeToolSpec, registryExecute, validateToolArgs, h, hp, hr]

/-! ## Claim C2: requestToolCall three-way case split -/

/-- Claim C2: `requestToolCall` satisfies the three-way case split of the
spec — unknown tool: immediate structured failure, no exception, no state
write; confirmation-requiring tool under the enabled global policy: a
fresh `PendingToolCall` overwrites the single per-conversation pending
key (so at most one pending call per conversation exists) and nothing is
executed; otherwise: immediate execution. -/
theorem requestToolCall_three_way {A : Type} (mcpConfirm : Bool) (reg : List (ToolMetadata A))
    (store : PendingStore A) (conversationId toolName : String) (args : A)
    (newId createdAt : String) :
    requestToolCall mcpConfirm reg store conversationId toolName args newId createdAt =
      requestToolCallSpec mcpConfirm reg store conversationId toolName args newId createdAt := by
  cases h : getTool reg toolName with
  | none => simp [requestToolCall, requestToolCallSpec, h]
  | some t =>
    by_cases hc : (registryRequiresConfirmation reg toolName && mcpConfirm) = true
    · simp [requestToolCall, requestToolCallSpec, createPendingCall, h, hc]
    · simp [requestToolCall, requestToolCallSpec, h, hc]

/-! ## Claim C1: at most five completion rounds -/

theorem requestToolCall_when_disabled {A : Type} (reg : List (ToolMetadata A))
    (store : PendingStore A) (conv toolName : String) (args : A) (newId createdAt : String) :
    ∃ result ex, requestToolCall false reg store conv toolName args newId createdAt =
      { response := RequestResult.immediate result, store := store, executed := ex } := by
  cases h : getTool reg toolName with
  | none =>
    exact ⟨{ success := false, message := some ("未知工具: " ++ toolName) }, [],
      by simp [requestToolCall, h]⟩
  | some t =>
    exact ⟨executeTool reg toolName args, [toolName], by simp [requestToolCall, h]⟩

theorem processCalls_no_confirm {A : Type} (env : AgentEnv A) (conv : String)
    (hcfg : env.mcpConfirmRequired = false) :
    ∀ (calls : List ToolCall) (msgs : List CompletionMessage) (store : PendingStore A)
      (events : List AGUIEvent) (nc : Bool),
      (∀ ev st, processCalls env conv calls msgs store events nc ≠
        CallsOutcome.confirmed ev st) ∧
      (∀ ev st ms b,
        processCalls env conv calls msgs store events nc = CallsOutcome.done ev st ms b →
        b = (nc || !calls.isEmpty) ∧ ∃ ev2, ev = events ++ ev2) := by
  intro calls
  induction calls with
  | nil =>
    intro msgs store events nc
    constructor
    · intro ev st h
      simp [processCalls] at h
    · intro ev st ms b h
      simp only [processCalls, CallsOutcome.done.injEq] at h
      obtain ⟨hev, _, _, hb⟩ := h
      refine ⟨?_, ⟨[], by rw [← hev, List.append_nil]⟩⟩
      simp [← hb]
  | cons c rest ih =>
    intro msgs store events nc
    obtain ⟨result, ex, hr⟩ := requestToolCall_when_disabled env.registry store conv
      c.function.name (env.parseArgs c.function.arguments) env.newId env.now
    constructor
    · intro ev st h
      simp only [processCalls, hcfg, hr] at h
      exact (ih _ _ _ _).1 ev st h
    · intro ev st ms b h
      simp only [processCalls, hcfg, hr] at h
      obtain ⟨hb, ⟨ev2, hev⟩⟩ := (ih _ _ _ _).2 ev st ms b h
      refine ⟨by simp [hb], ?_⟩
      exact ⟨[AGUIEvent.toolCallResult c.function.name (env.serializeOutcome result)] ++ ev2,
        by rw [hev, List.append_assoc]⟩

theorem streamCompletionLoop_rounds_le {A : Type} (env : AgentEnv A)
    (model : List CompletionMessage → List StreamChunk) (conv : String) :
    ∀ (n : Nat) (messages : List CompletionMessage) (store : PendingStore A)
      (events : List AGUIEvent) (lc : Nat), lc ≤ maxLoops → maxLoops - lc ≤ n →
      (streamCompletionLoop env model conv messages store events lc).rounds ≤ maxLoops := by
  intro n
  induction n with
  | zero =>
    intro messages store events lc h1 h2
    rw [streamCompletionLoop, dif_neg (by omega)]
    exact h1
  | succ n ih =>
    intro messages store events lc h1 h2
    rw [streamCompletionLoop]
    by_cases hlt : lc < maxLoops
    · rw [dif_pos hlt]
      dsimp only
      split
      · dsimp only
        omega
      · split
        · dsimp only
          omega
        · split
          · dsimp only
            omega
          · split
            · dsimp only
              omega
            · exact ih _ _ _ (lc + 1) (by omega) (by omega)
    · rw [dif_neg hlt]
      exact h1

theorem streamCompletionLoop_hits_max {A : Type} (env : AgentEnv A)
    (model : List CompletionMessage → List StreamChunk) (conv : String)
    (hcfg : env.mcpConfirmRequired = false)
    (hmodel : ∀ ms, roundCalls (model ms) ≠ []) :
    ∀ (n : Nat) (messages : List CompletionMessage) (store : PendingStore A)
      (events : List AGUIEvent) (lc : Nat), lc < maxLoops → maxLoops - lc ≤ n →
      (streamCompletionLoop env model conv messages store events lc).rounds = maxLoops ∧
      ∃ ev, (streamCompletionLoop env model conv messages store events lc).events =
        ev ++ [AGUIEvent.textMessageContent maxLoopsNotice] := by
  intro n
  induction n with
  | zero =>
    intro messages store events lc h1 h2
    omega
  | succ n ih =>
    intro messages store events lc h1 h2
    rw [streamCompletionLoop, dif_pos h1]
    dsimp only
    have hne : (List.foldl processChunk roundInit (model messages)).acc.calls ≠ [] :=
      hmodel messages
    rw [if_neg (by simpa using hne)]
    split
    · rename_i ev st heq
      exact absurd heq ((processCalls_no_confirm env conv hcfg _ _ _ _ _).1 ev st)
    · rename_i ev st ms b heq
      obtain ⟨hb, ev2, hev⟩ := (processCalls_no_confirm env conv hcfg _ _ _ _ _).2 ev st ms b heq
      have hbt : b = true := by
        rw [hb]
        simp [hne]
      subst hbt
      by_cases hlast : maxLoops ≤ lc + 1
      · rw [if_pos ⟨hlast, rfl⟩]
        dsimp only
        exact ⟨by omega, ⟨ev, rfl⟩⟩
      · rw [if_neg (fun hh => hlast hh.1)]
        rw [if_neg (by simp)]
        exact ih _ _ _ (lc + 1) (by omega) (by omega)

/-- Claim C1: the orchestration loop performs at most 5 completion rounds
per turn; and if the model returns tool calls on every round (with the
confirmation gate disabled so every call executes), the 5th round emits
the max-iteration notice as a `TEXT_MESSAGE_CONTENT` delta and the turn
terminates instead of starting a 6th round. -/
theorem streamCompletion_max_five_rounds :
    (∀ (A : Type) (env : AgentEnv A) (model : List CompletionMessage → List StreamChunk)
      (conv : String) (messages : List CompletionMessage) (store : PendingStore A),
      (streamCompletion env model conv messages store).rounds ≤ 5) ∧
    (∀ (A : Type) (env : AgentEnv A) (model : List CompletionMessage → List StreamChunk)
      (conv : String) (messages : List CompletionMessage) (store : PendingStore A),
      env.mcpConfirmRequired = false → (∀ ms, roundCalls (model ms) ≠ []) →
      (streamCompletion env model conv messages store).rounds = 5 ∧
      (streamCompletion env model conv messages store).events.getLast? =
        some (AGUIEvent.textMessageContent maxLoopsNotice)) := by
  constructor
  · intro A env model conv messages store
    exact streamCompletionLoop_rounds_le env model conv maxLoops messages store [] 0
      (by omega) (by omega)
  · intro A env model conv messages store hcfg hmodel
    obtain ⟨h1, ev, hev⟩ := streamCompletionLoop_hits_max env model conv hcfg hmodel
      maxLoops messages store [] 0 (by decide) (by omega)
    refine ⟨h1, ?_⟩
    show (streamCompletionLoop env model conv messages store [] 0).events.getLast? = _
    rw [hev, List.getLast?_concat]

/-- Witness for C1: a concrete simulated model that emits a `ping` tool
call every round, with the confirmation policy disabled, reaches exactly
5 rounds and ends with the max-iteration notice. -/
theorem streamCompletion_max_five_rounds_witness :
    (sampleEnv.mcpConfirmRequired = false) ∧
    ((streamCompletion sampleEnv sampleAlwaysToolModel "conv" [] emptyPendingStore).rounds = 5 ∧
      (streamCompletion sampleEnv sampleAlwaysToolModel "conv" []
        emptyPendingStore).events.getLast? =
        some (AGUIEvent.textMessageContent maxLoopsNotice)) :=
  ⟨rfl,
    streamCompletion_max_five_rounds.2 Unit sampleEnv sampleAlwaysToolModel "conv" []
      emptyPendingStore rfl
      (fun _ => show roundCalls (sampleAlwaysToolModel []) ≠ [] by decide)⟩

/-! ## Claim C9: search contract -/

/-- Claim C9: for every chunk collection, query, topK and threshold,
`search` returns at most `topK` results, every returned score is at least
`scoreThreshold` (sub-threshold chunks are discarded), the results are
sorted descending by score, and the empty query returns no results with
no embedding call and no chunk load. -/
theorem search_contract {E S : Type} [LinearOrder S] (embed : String → E) (sim : E → E → S)
    (chunks : List (RagChunkS E S)) (query : String) (topK : Nat) (thr : S) :
    (search embed sim chunks query topK thr).results.length ≤ topK ∧
    (∀ c ∈ (search embed sim chunks query topK thr).results, thr ≤ c.score) ∧
    (search embed sim chunks query topK thr).results.Pairwise
      (fun a b => b.score ≤ a.score) ∧
    (search embed sim chunks "" topK thr =
      { results := [], embedCalled := false, chunksLoaded := false }) := by
  refine ⟨?_, ?_, ?_, by simp [search]⟩
  · by_cases hq : query = ""
    · simp [search, hq]
    · simp only [search, if_neg hq]
      exact List.length_take_le ..
  · intro c hc
    by_cases hq : query = ""
    · simp [search, hq] at hc
    · simp only [search, if_neg hq] at hc
      have hc2 := List.take_subset _ _ hc
      have hc3 := (List.mergeSort_perm _ scoreDescBefore).mem_iff.mp hc2
      rw [List.mem_filterMap] at hc3
      obtain ⟨a, ha, hid⟩ := hc3
      rw [List.mem_map] at ha
      obtain ⟨chunk, _, heq⟩ := ha
      simp only [id_eq] at hid
      subst hid
      by_cases hlt : sim (embed query) chunk.embedding < thr
      · rw [if_pos hlt] at heq
        exact absurd heq (by simp)
      · rw [if_neg hlt] at heq
        obtain rfl := (Option.some.inj heq).symm
        exact not_lt.mp hlt
  · by_cases hq : query = ""
    · simp [search, hq]
    · simp only [search, if_neg hq]
      have htrans : ∀ a b c : RagChunkS E S, scoreDescBefore a b = true →
          scoreDescBefore b c = true → scoreDescBefore a c = true := by
        intro a b c hab hbc
        simp only [scoreDescBefore, decide_eq_true_eq] at *
        exact le_trans hbc hab
      have htotal : ∀ a b : RagChunkS E S,
          (scoreDescBefore a b || scoreDescBefore b a) = true := by
        intro a b
        simp only [scoreDescBefore, Bool.or_eq_true, decide_eq_true_eq]
        exact le_total b.score a.score
      have hs := List.sorted_mergeSort htrans htotal
        ((chunks.map (fun chunk =>
          let score := sim (embed query) chunk.embedding
          if score < thr then none
          else some { chunk with score := score })).filterMap id)
      have hs2 := hs.imp (fun hab => by
        simpa [scoreDescBefore] using hab)
      exact hs2.sublist (List.take_sublist ..)

/-! ## Claim C8: cosine similarity bounds -/

theorem cosineAcc_eq_sums (a b : List ℝ) :
    cosineAcc a b = (∑ i ∈ Finset.range a.length, a.getD i 0 * b.getD i 0,
                     ∑ i ∈ Finset.range a.length, a.getD i 0 * a.getD i 0,
                     ∑ i ∈ Finset.range a.length, b.getD i 0 * b.getD i 0) := by
  unfold cosineAcc
  generalize a.length = n
  induction n with
  | zero => simp
  | succ n ih =>
    rw [List.range_succ, List.foldl_append, ih]
    simp [Finset.sum_range_succ]

theorem normSq_eq_sum (a : List ℝ) :
    normSq a = ∑ i ∈ Finset.range a.length, a.getD i 0 * a.getD i 0 := by
  induction a with
  | nil => simp [normSq]
  | cons x xs ih =>
    rw [List.length_cons, Finset.sum_range_succ']
    simp only [List.getD_cons_succ, List.getD_cons_zero]
    rw [← ih]
    simp [normSq]
    ring

theorem cosine_div_bounds_aux (dot DA DB : ℝ) (hDA0 : 0 ≤ DA) (_hDB0 : 0 ≤ DB)
    (hcs : dot * dot ≤ DA * DB) :
    (-1 : ℝ) ≤ dot / (Real.sqrt DA * Real.sqrt DB + 1e-8) ∧
    dot / (Real.sqrt DA * Real.sqrt DB + 1e-8) ≤ 1 := by
  have habs : |dot| ≤ Real.sqrt DA * Real.sqrt DB := by
    rw [← Real.sqrt_sq_eq_abs, ← Real.sqrt_mul hDA0]
    apply Real.sqrt_le_sqrt
    calc dot ^ 2 = dot * dot := pow_two dot
      _ ≤ DA * DB := hcs
  have hpos : (0 : ℝ) < Real.sqrt DA * Real.sqrt DB + 1e-8 := by positivity
  have hb : |dot / (Real.sqrt DA * Real.sqrt DB + 1e-8)| ≤ 1 := by
    rw [abs_div, abs_of_pos hpos]
    apply div_le_one_of_le₀
    · calc |dot| ≤ Real.sqrt DA * Real.sqrt DB := habs
        _ ≤ Real.sqrt DA * Real.sqrt DB + 1e-8 := by norm_num
    · exact le_of_lt hpos
  exact abs_le.mp hb

/-- Claim C8: for two equal-dimension non-zero vectors, the computed
similarity `dot / (sqrt(normA)·sqrt(normB) + ε)` with `ε = 1e-8` lies in
`[-1, 1]`, and the similarity of a vector with itself equals
`normSq a / (normSq a + ε)` (i.e. 1 up to the tolerance introduced by
ε). -/
theorem cosineSimilarity_bounds (a b : List ℝ) (_hlen : a.length = b.length)
    (_ha : ∃ x ∈ a, x ≠ 0) (_hb : ∃ x ∈ b, x ≠ 0) :
    ((-1 : ℝ) ≤ cosineSimilarity a b ∧ cosineSimilarity a b ≤ 1) ∧
    cosineSimilarity a a = normSq a / (normSq a + 1e-8) := by
  constructor
  · have hval : cosineSimilarity a b =
        (∑ i ∈ Finset.range a.length, a.getD i 0 * b.getD i 0) /
          (Real.sqrt (∑ i ∈ Finset.range a.length, a.getD i 0 * a.getD i 0) *
            Real.sqrt (∑ i ∈ Finset.range a.length, b.getD i 0 * b.getD i 0) + 1e-8) := by
      unfold cosineSimilarity
      rw [cosineAcc_eq_sums]
    have h := Finset.sum_mul_sq_le_sq_mul_sq (Finset.range a.length)
      (fun i => a.getD i 0) (fun i => b.getD i 0)
    simp only [pow_two] at h
    rw [hval]
    exact cosine_div_bounds_aux _ _ _
      (Finset.sum_nonneg (fun i _ => mul_self_nonneg _))
      (Finset.sum_nonneg (fun i _ => mul_self_nonneg _)) h
  · unfold cosineSimilarity
    rw [cosineAcc_eq_sums]
    simp only
    rw [Real.mul_self_sqrt (Finset.sum_nonneg (fun i _ => mul_self_nonneg _)), normSq_eq_sum]

/-- Witness for C8 at the one-dimensional vectors `[1]` and `[1]`. -/
theorem cosineSimilarity_bounds_witness :
    (([(1 : ℝ)].length = [(1 : ℝ)].length) ∧ (∃ x ∈ [(1 : ℝ)], x ≠ 0)) ∧
    (((-1 : ℝ) ≤ cosineSimilarity [1] [1] ∧ cosineSimilarity [1] [1] ≤ 1) ∧
      cosineSimilarity [1] [1] = normSq [1] / (normSq [1] + 1e-8)) :=
  ⟨⟨rfl, ⟨1, by simp⟩⟩,
    cosineSimilarity_bounds [1] [1] rfl ⟨1, by simp⟩ ⟨1, by simp⟩⟩

/-- Counterexample to claim C1 as stated: `confirmGateModel` always
returns a tool call (the same one for every message list), yet with the
confirmation-gated `delete_file` tool under the enabled global policy the
turn terminates after ONE completion round with the confirmation-request
delta — no max-iteration notice is ever emitted and round 5 is never
reached. -/
theorem streamCompletion_confirm_gate_cex :
    roundCalls (confirmGateModel []) ≠ [] ∧
    (streamCompletion confirmGateEnv confirmGateModel "conv" [] emptyPendingStore).rounds = 1 ∧
    (streamCompletion confirmGateEnv confirmGateModel "conv" []
      emptyPendingStore).events.getLast? = some (AGUIEvent.textMessageContent "confirm") ∧
    AGUIEvent.textMessageContent "confirm" ≠ AGUIEvent.textMessageContent maxLoopsNotice := by
  refine ⟨by decide, ?_, ?_, by decide⟩
  · show (streamCompletionLoop confirmGateEnv confirmGateModel "conv" [] emptyPendingStore
      [] 0).rounds = 1
    rw [streamCompletionLoop, dif_pos (by decide)]
    decide
  · show (streamCompletionLoop confirmGateEnv confirmGateModel "conv" [] emptyPendingStore
      [] 0).events.getLast? = _
    rw [streamCompletionLoop, dif_pos (by decide)]
    decide
